import Mathlib

/-!
Verification of the RBF (radial basis function) descriptor kernel.

The development shallowly embeds the numerical core of `descriptor.py`:
the scalar helpers `smooth_cutoff`, `smooth_cutoff_derivative`, `gaussian`,
`gaussian_derivative`, the grid builder `radial_grid` (NumPy `arange` in
exact arithmetic), and the central routine `rbf_descriptor`, which maps a
set of relative neighbor vectors to a feature vector `p` and its Jacobian
`q`, optionally normalized.  Machine floats are modelled by real numbers;
array expressions are written index-wise, following the broadcasting of
the source line by line.
-/

namespace RBF

open Real Finset Matrix

/-- Euclidean norm of a 3-vector, as computed by `np.linalg.norm(r, axis=1)`
for one row `r[j]`. -/
noncomputable def vnorm (v : Fin 3 → ℝ) : ℝ := Real.sqrt (∑ i, v i ^ 2)

/-- Source: `smooth_cutoff(d, cutoff) = (1 - d / cutoff) ** 2`. -/
noncomputable def smooth_cutoff (d cutoff : ℝ) : ℝ := (1 - d / cutoff) ^ 2

/-- Source: `smooth_cutoff_derivative(d, cutoff) = 2 * (-1 / cutoff) * (1 - d / cutoff)`. -/
noncomputable def smooth_cutoff_derivative (d cutoff : ℝ) : ℝ :=
  2 * (-1 / cutoff) * (1 - d / cutoff)

/-- Source: `gaussian(x, beta) = np.exp(-0.5 * (x / beta) ** 2)`. -/
noncomputable def gaussian (x beta : ℝ) : ℝ := Real.exp (-0.5 * (x / beta) ^ 2)

/-- Source: `gaussian_derivative(x, beta) = -(x / beta**2) * gaussian(x, beta)`. -/
noncomputable def gaussian_derivative (x beta : ℝ) : ℝ :=
  -(x / beta ^ 2) * gaussian x beta

/-- NumPy `np.arange(start, stop, step)` in exact real arithmetic: the list of
`⌈(stop - start)/step⌉` values `start + i * step`, `i = 0, 1, ...`
(`Nat.ceil` clips a nonpositive count to zero, matching the empty result). -/
noncomputable def arange (start stop step : ℝ) : List ℝ :=
  (List.range ⌈(stop - start) / step⌉₊).map (fun i : ℕ => start + (i : ℝ) * step)

/-- Source: `radial_grid(cutoff, alpha) = np.arange(0.0, cutoff, alpha)`. -/
noncomputable def radial_grid (cutoff alpha : ℝ) : List ℝ := arange 0 cutoff alpha

/-- Number of grid points: the length of `radial_grid(cutoff, alpha)`. -/
noncomputable def gridSize (cutoff alpha : ℝ) : ℕ := (radial_grid cutoff alpha).length

lemma gridSize_eq_ceil (cutoff alpha : ℝ) : gridSize cutoff alpha = ⌈cutoff / alpha⌉₊ := by
  rw [gridSize, radial_grid, arange, List.length_map, List.length_range, sub_zero]

lemma radial_grid_get (cutoff alpha : ℝ) (k : Fin (gridSize cutoff alpha)) :
    (radial_grid cutoff alpha).get k = (k : ℕ) * alpha := by
  simp only [radial_grid, arange, List.get_eq_getElem]
  rw [List.getElem_map, List.getElem_range, zero_add]

/-- Source line `d = np.linalg.norm(r, axis=1)`: distance of neighbor `j`. -/
noncomputable def dists {n : ℕ} (r : Fin n → Fin 3 → ℝ) (j : Fin n) : ℝ := vnorm (r j)

/-- Source line `x = grid[:, None] - d[None, :]`: the matrix `x[k, j] = grid[k] - d[j]`. -/
noncomputable def xkj {n : ℕ} (cutoff alpha : ℝ) (r : Fin n → Fin 3 → ℝ)
    (k : Fin (gridSize cutoff alpha)) (j : Fin n) : ℝ :=
  (radial_grid cutoff alpha).get k - dists r j

/-- Source line `p = (g * c).sum(axis=1)`: the raw (unnormalized) descriptor entry
`p[k] = sum_j gaussian(x[k,j], beta) * smooth_cutoff(d[j], cutoff)`. -/
noncomputable def rawP {n : ℕ} (cutoff alpha beta : ℝ) (r : Fin n → Fin 3 → ℝ)
    (k : Fin (gridSize cutoff alpha)) : ℝ :=
  ∑ j, gaussian (xkj cutoff alpha r k j) beta * smooth_cutoff (dists r j) cutoff

/-- Source line `q = D_g_r * c[:, None] + g[:, :, None] * D_c_r`, written entry-wise:
`q[k,j,c] = (-D_g_x[k,j] * D_d_r[j,c]) * c[j] + g[k,j] * (D_c_d[j] * D_d_r[j,c])`
with `D_d_r[j,c] = r[j,c] / d[j]`. -/
noncomputable def rawQ {n : ℕ} (cutoff alpha beta : ℝ) (r : Fin n → Fin 3 → ℝ)
    (k : Fin (gridSize cutoff alpha)) (j : Fin n) (c : Fin 3) : ℝ :=
  -gaussian_derivative (xkj cutoff alpha r k j) beta * (r j c / dists r j) *
      smooth_cutoff (dists r j) cutoff +
    gaussian (xkj cutoff alpha r k j) beta *
      (smooth_cutoff_derivative (dists r j) cutoff * (r j c / dists r j))

/-- Source line `norm = np.linalg.norm(p)`: Euclidean norm of the raw descriptor. -/
noncomputable def pnorm {n : ℕ} (cutoff alpha beta : ℝ) (r : Fin n → Fin 3 → ℝ) : ℝ :=
  Real.sqrt (∑ k, rawP cutoff alpha beta r k ^ 2)

/-- Source line `p = p / norm`: the normalized descriptor. -/
noncomputable def normP {n : ℕ} (cutoff alpha beta : ℝ) (r : Fin n → Fin 3 → ℝ)
    (k : Fin (gridSize cutoff alpha)) : ℝ :=
  rawP cutoff alpha beta r k / pnorm cutoff alpha beta r

/-- Source lines `q = q / norm` and `q = q - p[..., None, None] * (p[..., None, None] * q).sum(axis=0)`:
the normalized, projected Jacobian. -/
noncomputable def normQ {n : ℕ} (cutoff alpha beta : ℝ) (r : Fin n → Fin 3 → ℝ)
    (k : Fin (gridSize cutoff alpha)) (j : Fin n) (c : Fin 3) : ℝ :=
  rawQ cutoff alpha beta r k j c / pnorm cutoff alpha beta r -
    normP cutoff alpha beta r k *
      ∑ l, normP cutoff alpha beta r l * (rawQ cutoff alpha beta r l j c / pnorm cutoff alpha beta r)

open Classical in
/-- The full `rbf_descriptor(r, cutoff, alpha, beta, normalized)`.  The guard models
`assert all(d < cutoff)`: the call raises (returns `none`) exactly when the assert
fails, and otherwise returns the (optionally normalized) pair `(p, q)`. -/
noncomputable def rbf_descriptor {n : ℕ} (cutoff alpha beta : ℝ) (normalized : Bool)
    (r : Fin n → Fin 3 → ℝ) :
    Option ((Fin (gridSize cutoff alpha) → ℝ) ×
      (Fin (gridSize cutoff alpha) → Fin n → Fin 3 → ℝ)) :=
  if ∀ j, dists r j < cutoff then
    if normalized then some (normP cutoff alpha beta r, normQ cutoff alpha beta r)
    else some (rawP cutoff alpha beta r, rawQ cutoff alpha beta r)
  else none

/-- Modelled from the spec: `gaussian(x, beta) = exp(-0.5 * (x/beta)^2)` as written
in the GaussianKernel contract (used to compare against the source definition). -/
noncomputable def gaussianSpec (x beta : ℝ) : ℝ := Real.exp (-0.5 * (x / beta) ^ 2)

/-- Modelled from the spec: `window(d, cutoff) = (1 - d/cutoff)^2` as written in the
SmoothCutoffWindow contract. -/
noncomputable def windowSpec (d cutoff : ℝ) : ℝ := (1 - d / cutoff) ^ 2

lemma gaussian_pos (x beta : ℝ) : 0 < gaussian x beta := Real.exp_pos _

lemma smooth_cutoff_pos {d cutoff : ℝ} (hc : 0 < cutoff) (h : d < cutoff) :
    0 < smooth_cutoff d cutoff := by
  have h1 : d / cutoff < 1 := (div_lt_one hc).mpr h
  have h2 : 0 < 1 - d / cutoff := by linarith
  exact pow_pos h2 2

lemma rawP_pos {n : ℕ} {cutoff alpha beta : ℝ} {r : Fin n → Fin 3 → ℝ}
    (hn : 0 < n) (hc : 0 < cutoff) (hd : ∀ j, dists r j < cutoff)
    (k : Fin (gridSize cutoff alpha)) : 0 < rawP cutoff alpha beta r k := by
  have : Nonempty (Fin n) := ⟨⟨0, hn⟩⟩
  exact Finset.sum_pos
    (fun j _ => mul_pos (gaussian_pos _ _) (smooth_cutoff_pos hc (hd j)))
    Finset.univ_nonempty

lemma gridSize_pos {cutoff alpha : ℝ} (hc : 0 < cutoff) (ha : 0 < alpha) :
    0 < gridSize cutoff alpha := by
  rw [gridSize_eq_ceil]
  exact Nat.ceil_pos.mpr (div_pos hc ha)

lemma pnorm_pos {n : ℕ} {cutoff alpha beta : ℝ} {r : Fin n → Fin 3 → ℝ}
    (hn : 0 < n) (hc : 0 < cutoff) (ha : 0 < alpha) (hd : ∀ j, dists r j < cutoff) :
    0 < pnorm cutoff alpha beta r := by
  rw [pnorm, Real.sqrt_pos]
  have : Nonempty (Fin (gridSize cutoff alpha)) := ⟨⟨0, gridSize_pos hc ha⟩⟩
  exact Finset.sum_pos (fun k _ => pow_pos (rawP_pos hn hc hd k) 2) Finset.univ_nonempty

lemma sq_pnorm {n : ℕ} (cutoff alpha beta : ℝ) (r : Fin n → Fin 3 → ℝ) :
    pnorm cutoff alpha beta r ^ 2 = ∑ k, rawP cutoff alpha beta r k ^ 2 :=
  Real.sq_sqrt (Finset.sum_nonneg fun k _ => sq_nonneg _)

lemma sum_normP_sq {n : ℕ} {cutoff alpha beta : ℝ} {r : Fin n → Fin 3 → ℝ}
    (hn : 0 < n) (hc : 0 < cutoff) (ha : 0 < alpha) (hd : ∀ j, dists r j < cutoff) :
    ∑ k, normP cutoff alpha beta r k ^ 2 = 1 := by
  have hN : pnorm cutoff alpha beta r ≠ 0 := (pnorm_pos hn hc ha hd).ne'
  simp only [normP, div_pow]
  rw [← Finset.sum_div, ← sq_pnorm, div_self (pow_ne_zero 2 hN)]

/-- Concrete single-neighbor configuration `r = [[1, 0, 0]]` used by witnesses. -/
noncomputable def rW : Fin 1 → Fin 3 → ℝ := fun _ => ![1, 0, 0]

lemma dists_rW (j : Fin 1) : dists rW j = 1 := by
  have h : ∑ i, rW j i ^ 2 = 1 := by
    simp [rW, Fin.sum_univ_three]
  rw [dists, vnorm, h, Real.sqrt_one]

/-- Concrete grid index `0` for `cutoff = 3`, `alpha = 1/2`, used by witnesses. -/
def kW : Fin (gridSize 3 (1/2)) :=
  ⟨0, by rw [gridSize_eq_ceil]; exact Nat.ceil_pos.mpr (by norm_num)⟩

/-- Claim C10: for a non-empty neighbor set with all distances strictly inside
`(0, cutoff)` (and valid positive hyperparameters), every entry of the raw
descriptor is strictly positive, hence the Euclidean norm used by the
normalization step is strictly positive and the division never divides by zero. -/
theorem rawP_positive_pnorm_positive {n : ℕ} (cutoff alpha beta : ℝ)
    (r : Fin n → Fin 3 → ℝ) (hc : 0 < cutoff) (ha : 0 < alpha) (hn : 0 < n)
    (hd : ∀ j, 0 < dists r j ∧ dists r j < cutoff) (k : Fin (gridSize cutoff alpha)) :
    0 < rawP cutoff alpha beta r k ∧ 0 < pnorm cutoff alpha beta r ∧
      pnorm cutoff alpha beta r ≠ 0 := by
  have hd2 : ∀ j, dists r j < cutoff := fun j => (hd j).2
  exact ⟨rawP_pos hn hc hd2 k, pnorm_pos hn hc ha hd2,
    (pnorm_pos hn hc ha hd2).ne'⟩

theorem rawP_positive_pnorm_positive_witness :
    0 < rawP 3 (1/2) (1/2) rW kW ∧ 0 < pnorm 3 (1/2) (1/2) rW ∧
      pnorm 3 (1/2) (1/2) rW ≠ 0 :=
  rawP_positive_pnorm_positive 3 (1/2) (1/2) rW (by norm_num) (by norm_num)
    (by norm_num) (fun j => by rw [dists_rW]; norm_num) kW

/-- Claim C2: for a non-empty neighbor set with all distances strictly inside
`(0, cutoff)` (and valid positive hyperparameters), the normalized descriptor
has Euclidean norm exactly 1 in exact arithmetic. -/
theorem normalized_descriptor_unit_norm {n : ℕ} (cutoff alpha beta : ℝ)
    (r : Fin n → Fin 3 → ℝ) (hc : 0 < cutoff) (ha : 0 < alpha) (hn : 0 < n)
    (hd : ∀ j, 0 < dists r j ∧ dists r j < cutoff) :
    Real.sqrt (∑ k, normP cutoff alpha beta r k ^ 2) = 1 := by
  rw [sum_normP_sq hn hc ha (fun j => (hd j).2), Real.sqrt_one]

theorem normalized_descriptor_unit_norm_witness :
    Real.sqrt (∑ k, normP 3 (1/2) (1/2) rW k ^ 2) = 1 :=
  normalized_descriptor_unit_norm 3 (1/2) (1/2) rW (by norm_num) (by norm_num)
    (by norm_num) (fun j => by rw [dists_rW]; norm_num)

/-- Claim C3: after normalization the Jacobian slice of every neighbor and
coordinate is exactly orthogonal to the normalized descriptor:
`∑ k, p[k] * q[k,j,c] = 0` in exact arithmetic. -/
theorem normalized_jacobian_projection_zero {n : ℕ} (cutoff alpha beta : ℝ)
    (r : Fin n → Fin 3 → ℝ) (hc : 0 < cutoff) (ha : 0 < alpha) (hn : 0 < n)
    (hd : ∀ j, 0 < dists r j ∧ dists r j < cutoff) (j : Fin n) (c : Fin 3) :
    ∑ k, normP cutoff alpha beta r k * normQ cutoff alpha beta r k j c = 0 := by
  have h1 := @sum_normP_sq n cutoff alpha beta r hn hc ha (fun i => (hd i).2)
  simp only [normQ, mul_sub]
  rw [Finset.sum_sub_distrib]
  have h2 : ∑ k, normP cutoff alpha beta r k *
      (normP cutoff alpha beta r k *
        ∑ l, normP cutoff alpha beta r l * (rawQ cutoff alpha beta r l j c / pnorm cutoff alpha beta r)) =
      (∑ k, normP cutoff alpha beta r k ^ 2) *
        ∑ l, normP cutoff alpha beta r l * (rawQ cutoff alpha beta r l j c / pnorm cutoff alpha beta r) := by
    rw [Finset.sum_mul]
    exact Finset.sum_congr rfl fun k _ => by ring
  rw [h2, h1, one_mul, sub_self]

theorem normalized_jacobian_projection_zero_witness :
    ∑ k, normP 3 (1/2) (1/2) rW k * normQ 3 (1/2) (1/2) rW k 0 0 = 0 :=
  normalized_jacobian_projection_zero 3 (1/2) (1/2) rW (by norm_num) (by norm_num)
    (by norm_num) (fun j => by rw [dists_rW]; norm_num) 0 0

/-- Claim C4: the raw descriptor entry at grid point `x_k = k * alpha` is
`∑_j gaussian(x_k - d_j, beta) * window(d_j, cutoff)` with the spec's
`gaussian(x, beta) = exp(-0.5 (x/beta)^2)` and `window(d, cutoff) = (1 - d/cutoff)^2`. -/
theorem rawP_matches_spec_formula {n : ℕ} (cutoff alpha beta : ℝ)
    (r : Fin n → Fin 3 → ℝ) (hd : ∀ j, 0 < dists r j ∧ dists r j < cutoff)
    (k : Fin (gridSize cutoff alpha)) :
    rawP cutoff alpha beta r k =
      ∑ j, gaussianSpec ((k : ℕ) * alpha - dists r j) beta * windowSpec (dists r j) cutoff := by
  simp only [rawP, xkj, radial_grid_get, gaussianSpec, gaussian, windowSpec, smooth_cutoff]

theorem rawP_matches_spec_formula_witness :
    rawP 3 (1/2) (1/2) rW kW =
      ∑ j, gaussianSpec (((kW : ℕ) : ℝ) * (1/2) - dists rW j) (1/2) * windowSpec (dists rW j) 3 :=
  rawP_matches_spec_formula 3 (1/2) (1/2) rW (fun j => by rw [dists_rW]; norm_num) kW

/-- Claim C5 (code evaluated at the failing input): with an empty neighbor set the
raw descriptor is identically zero, so the norm computed by the normalization
step is zero and `p / norm` divides by zero (`0/0`, a NaN in IEEE arithmetic);
there is no guarded fallback in the code. -/
theorem rbf_empty_neighbors_norm_zero (cutoff alpha beta : ℝ) (r : Fin 0 → Fin 3 → ℝ) :
    (∀ k, rawP cutoff alpha beta r k = 0) ∧ pnorm cutoff alpha beta r = 0 := by
  constructor
  · intro k
    simp [rawP]
  · simp [pnorm, rawP]

/-- Claim C6 counterexample: at `cutoff = 3`, `alpha = 7/10` (positive, with
`alpha < cutoff`) the grid has 5 points while `floor(cutoff/alpha) = 4`. -/
theorem radial_grid_floor_length_cex :
    (0:ℝ) < 3 ∧ (0:ℝ) < 7/10 ∧ (7:ℝ)/10 < 3 ∧
      (radial_grid 3 (7/10)).length ≠ ⌊(3:ℝ) / (7/10)⌋₊ := by
  refine ⟨by norm_num, by norm_num, by norm_num, ?_⟩
  have h1 : (radial_grid 3 (7/10)).length = 5 := by
    rw [show (radial_grid 3 (7/10)).length = gridSize 3 (7/10) from rfl, gridSize_eq_ceil,
      Nat.ceil_eq_iff (by norm_num)]
    constructor <;> norm_num
  have h2 : ⌊(3:ℝ) / (7/10)⌋₊ = 4 := by
    rw [Nat.floor_eq_iff (by positivity)]
    constructor <;> norm_num
  rw [h1, h2]
  norm_num

/-- Claim C6 as amended: for positive `cutoff`, `alpha` with `alpha < cutoff`,
the grid has exactly `ceil(cutoff/alpha)` points (not `floor`), and its `k`-th
point is `k * alpha`. -/
theorem radial_grid_ceil_length (cutoff alpha : ℝ) (hc : 0 < cutoff) (ha : 0 < alpha)
    (hac : alpha < cutoff) :
    (radial_grid cutoff alpha).length = ⌈cutoff / alpha⌉₊ ∧
      ∀ k : Fin (gridSize cutoff alpha), (radial_grid cutoff alpha).get k = (k : ℕ) * alpha :=
  ⟨gridSize_eq_ceil cutoff alpha, radial_grid_get cutoff alpha⟩

theorem radial_grid_ceil_length_witness :
    (radial_grid 3 (1/2)).length = ⌈(3:ℝ) / (1/2)⌉₊ ∧
      ∀ k : Fin (gridSize 3 (1/2)), (radial_grid 3 (1/2)).get k = (k : ℕ) * (1/2) :=
  radial_grid_ceil_length 3 (1/2) (by norm_num) (by norm_num) (by norm_num)

/-- Claim C7 counterexample: at `cutoff = 3`, `alpha = 5` (so `alpha ≥ cutoff`)
the code raises no error and the grid is `[0]`, which is not empty — contrary to
the claimed `InvalidParameterError` / empty-grid condition. -/
theorem radial_grid_no_validation_cex :
    (3:ℝ) ≤ 5 ∧ radial_grid 3 5 = [0] := by
  refine ⟨by norm_num, ?_⟩
  have h : ⌈((3:ℝ) - 0) / 5⌉₊ = 1 := by
    rw [Nat.ceil_eq_iff (by norm_num)]
    constructor <;> norm_num
  rw [radial_grid, arange, h]
  norm_num [List.range_succ]

/-- Claim C7 as amended: `radial_grid` performs no parameter validation and
cannot fail; for every `cutoff > 0` and `alpha > 0` — including `alpha ≥ cutoff` —
it returns a non-empty sequence (it always contains the point 0). -/
theorem radial_grid_total_no_error (cutoff alpha : ℝ) (hc : 0 < cutoff) (ha : 0 < alpha) :
    radial_grid cutoff alpha ≠ [] := by
  intro h
  have hlen : (radial_grid cutoff alpha).length = 0 := by rw [h]; rfl
  rw [show (radial_grid cutoff alpha).length = gridSize cutoff alpha from rfl,
    gridSize_eq_ceil, Nat.ceil_eq_zero] at hlen
  have := div_pos hc ha
  linarith

theorem radial_grid_total_no_error_witness : radial_grid 3 5 ≠ [] :=
  radial_grid_total_no_error 3 5 (by norm_num) (by norm_num)

/-- Concrete degenerate neighbor set: one neighbor exactly at the central atom. -/
noncomputable def rZero : Fin 1 → Fin 3 → ℝ := fun _ => ![0, 0, 0]

/-- Claim C8 counterexample: a neighbor at distance 0 violates the contract
`0 < d < cutoff`, yet `rbf_descriptor` does not fail: the `assert all(d < cutoff)`
passes and a result is returned. -/
theorem zero_distance_passes_assert_cex :
    dists rZero 0 = 0 ∧ (rbf_descriptor 3 (1/2) (1/2) true rZero).isSome = true := by
  have hd0 : dists rZero 0 = 0 := by
    have h : ∑ i, rZero 0 i ^ 2 = 0 := by
      simp [rZero, Fin.sum_univ_three]
    rw [dists, vnorm, h, Real.sqrt_zero]
  refine ⟨hd0, ?_⟩
  have hcond : ∀ j, dists rZero j < 3 := by
    intro j
    rw [Subsingleton.elim j 0, hd0]
    norm_num
  rw [rbf_descriptor, if_pos hcond]
  simp

/-- Claim C8 as amended: the descriptor computation fails (the assert raises)
exactly when some neighbor distance is `≥ cutoff`; a distance of 0 is not
checked and does not cause a failure. -/
theorem rbf_descriptor_fails_iff_cutoff_violation {n : ℕ} (cutoff alpha beta : ℝ)
    (normalized : Bool) (r : Fin n → Fin 3 → ℝ) :
    rbf_descriptor cutoff alpha beta normalized r = none ↔ ∃ j, cutoff ≤ dists r j := by
  by_cases h : ∀ j, dists r j < cutoff
  · rw [rbf_descriptor, if_pos h]
    cases normalized <;> simp
    all_goals exact h
  · rw [rbf_descriptor, if_neg h]
    push_neg at h
    simpa using h

/-- Auxiliary: multiplication by a matrix with `Rᵀ R = 1` preserves the norm. -/
lemma vnorm_mulVec (R : Matrix (Fin 3) (Fin 3) ℝ) (hR : R.transpose * R = 1)
    (v : Fin 3 → ℝ) : vnorm (R.mulVec v) = vnorm v := by
  have h1 : R.mulVec v ⬝ᵥ R.mulVec v = v ⬝ᵥ v := by
    rw [Matrix.dotProduct_mulVec, ← Matrix.mulVec_transpose, Matrix.mulVec_mulVec,
      hR, Matrix.one_mulVec]
  have h2 : ∑ i, R.mulVec v i ^ 2 = ∑ i, v i ^ 2 := by
    simpa [Matrix.dotProduct, sq] using h1
  rw [vnorm, vnorm, h2]

/-- Claim C9: applying one orthogonal matrix (`Rᵀ R = 1`) to every relative
vector leaves both the raw and the normalized descriptor entries unchanged. -/
theorem descriptor_rotation_invariant {n : ℕ} (cutoff alpha beta : ℝ)
    (r : Fin n → Fin 3 → ℝ) (R : Matrix (Fin 3) (Fin 3) ℝ)
    (hR : R.transpose * R = 1) (k : Fin (gridSize cutoff alpha)) :
    rawP cutoff alpha beta (fun j => R.mulVec (r j)) k = rawP cutoff alpha beta r k ∧
      normP cutoff alpha beta (fun j => R.mulVec (r j)) k = normP cutoff alpha beta r k := by
  have hd : ∀ j, dists (fun i => R.mulVec (r i)) j = dists r j := by
    intro j
    rw [dists, dists]
    exact vnorm_mulVec R hR (r j)
  have hp : ∀ l : Fin (gridSize cutoff alpha),
      rawP cutoff alpha beta (fun j => R.mulVec (r j)) l = rawP cutoff alpha beta r l := by
    intro l
    simp only [rawP, xkj, hd]
  refine ⟨hp k, ?_⟩
  have hnorm : pnorm cutoff alpha beta (fun j => R.mulVec (r j)) = pnorm cutoff alpha beta r := by
    simp only [pnorm, hp]
  rw [normP, normP, hp k, hnorm]

/-- Concrete rotation by 90 degrees around the third axis, used by the witness. -/
noncomputable def R0 : Matrix (Fin 3) (Fin 3) ℝ := !![0, -1, 0; 1, 0, 0; 0, 0, 1]

theorem descriptor_rotation_invariant_witness :
    rawP 3 (1/2) (1/2) (fun j => R0.mulVec (rW j)) kW = rawP 3 (1/2) (1/2) rW kW ∧
      normP 3 (1/2) (1/2) (fun j => R0.mulVec (rW j)) kW = normP 3 (1/2) (1/2) rW kW :=
  descriptor_rotation_invariant 3 (1/2) (1/2) rW R0
    (by
      have hRT : R0.transpose = !![0, 1, 0; -1, 0, 0; 0, 0, 1] := by
        ext i j
        fin_cases i <;> fin_cases j <;>
          simp [R0, Matrix.transpose_apply, Matrix.vecHead, Matrix.vecTail]
      rw [hRT, R0, Matrix.mul_fin_three, Matrix.one_fin_three]
      norm_num) kW

lemma hasDerivAt_gaussian (beta x : ℝ) :
    HasDerivAt (fun y => gaussian y beta) (gaussian_derivative x beta) x := by
  have h1 : HasDerivAt (fun y : ℝ => y / beta) (1 / beta) x := by
    simpa using (hasDerivAt_id x).div_const beta
  have h3 := ((h1.pow 2).const_mul (-0.5 : ℝ)).exp
  convert h3 using 1
  simp only [gaussian_derivative, gaussian]
  ring

lemma hasDerivAt_smooth_cutoff (cutoff d : ℝ) :
    HasDerivAt (fun y => smooth_cutoff y cutoff) (smooth_cutoff_derivative d cutoff) d := by
  have h1 : HasDerivAt (fun y : ℝ => 1 - y / cutoff) (-(1 / cutoff)) d := by
    simpa using ((hasDerivAt_id d).div_const cutoff).const_sub 1
  have h2 := h1.pow 2
  convert h2 using 1
  simp only [smooth_cutoff_derivative]
  ring

lemma hasDerivAt_vnorm_update (v : Fin 3 → ℝ) (c : Fin 3) (h : vnorm v ≠ 0) :
    HasDerivAt (fun t => vnorm (Function.update v c t)) (v c / vnorm v) (v c) := by
  have hS : ∀ t : ℝ, ∑ i, Function.update v c t i ^ 2 =
      t ^ 2 + ∑ i in univ.erase c, v i ^ 2 := by
    intro t
    rw [← Finset.add_sum_erase _ _ (mem_univ c)]
    congr 1
    · rw [Function.update_same]
    · exact Finset.sum_congr rfl fun i hi => by
        rw [Function.update_noteq (Finset.ne_of_mem_erase hi)]
  have hsum : (∑ i, v i ^ 2) ≠ 0 := by
    intro h0
    exact h (by rw [vnorm, h0, Real.sqrt_zero])
  have hval : (v c) ^ 2 + ∑ i in univ.erase c, v i ^ 2 = ∑ i, v i ^ 2 := by
    rw [← hS (v c), Function.update_eq_self]
  have hinner : HasDerivAt (fun t : ℝ => t ^ 2 + ∑ i in univ.erase c, v i ^ 2)
      (2 * v c) (v c) := by
    have h2 := (hasDerivAt_pow 2 (v c)).add_const (∑ i in univ.erase c, v i ^ 2)
    convert h2 using 1
    norm_num
  have hsqrt := Real.hasDerivAt_sqrt (x := (v c) ^ 2 + ∑ i in univ.erase c, v i ^ 2)
    (by rw [hval]; exact hsum)
  have hcomp := hsqrt.comp (v c) hinner
  have hfun : (Real.sqrt ∘ fun t : ℝ => t ^ 2 + ∑ i in univ.erase c, v i ^ 2) =
      fun t => vnorm (Function.update v c t) := by
    funext t
    rw [Function.comp_apply, vnorm, hS t]
  rw [hfun] at hcomp
  convert hcomp using 1
  rw [hval, vnorm]
  have hs : Real.sqrt (∑ i, v i ^ 2) ≠ 0 := h
  field_simp
  ring

/-- Claim C1: for every neighbor configuration with all distances strictly inside
`(0, cutoff)`, each entry `q[k,j,c]` of the raw Jacobian computed by
`rbf_descriptor` is the derivative of the raw feature `p[k]` with respect to
coordinate `c` of relative vector `r[j]`. -/
theorem rbf_jacobian_entries_correct {n : ℕ} (cutoff alpha beta : ℝ)
    (r : Fin n → Fin 3 → ℝ) (hd : ∀ j, 0 < dists r j ∧ dists r j < cutoff)
    (k : Fin (gridSize cutoff alpha)) (j : Fin n) (c : Fin 3) :
    HasDerivAt
      (fun t => rawP cutoff alpha beta (Function.update r j (Function.update (r j) c t)) k)
      (rawQ cutoff alpha beta r k j c) (r j c) := by
  simp only [rawP, xkj]
  set g0 := (radial_grid cutoff alpha).get k with hg0
  have hvn : vnorm (r j) ≠ 0 := (hd j).1.ne'
  have hDd : HasDerivAt (fun t => vnorm (Function.update (r j) c t))
      (r j c / vnorm (r j)) (r j c) := hasDerivAt_vnorm_update (r j) c hvn
  have hterm : ∀ i : Fin n, HasDerivAt
      (fun t => gaussian (g0 - dists (Function.update r j (Function.update (r j) c t)) i) beta *
        smooth_cutoff (dists (Function.update r j (Function.update (r j) c t)) i) cutoff)
      (if i = j then rawQ cutoff alpha beta r k j c else 0) (r j c) := by
    intro i
    by_cases hij : i = j
    · subst hij
      rw [if_pos rfl]
      simp only [dists, Function.update_same]
      have hgauss := (hasDerivAt_gaussian beta
          (g0 - vnorm (Function.update (r i) c (r i c)))).comp
        (r i c) (hDd.const_sub g0)
      have hwin := (hasDerivAt_smooth_cutoff cutoff
          (vnorm (Function.update (r i) c (r i c)))).comp (r i c) hDd
      have hmul := hgauss.mul hwin
      simp only [Function.comp, Function.update_eq_self] at hmul
      convert hmul using 1
      rw [rawQ, xkj, hg0]
      simp only [dists]
      ring
    · rw [if_neg hij]
      simp only [dists, Function.update_noteq hij]
      exact hasDerivAt_const _ _
  have hsum := HasDerivAt.sum (u := univ) (fun i _ => hterm i)
  have hq : (∑ i, if i = j then rawQ cutoff alpha beta r k j c else 0) =
      rawQ cutoff alpha beta r k j c := by
    simp
  rw [← hq]
  exact hsum

theorem rbf_jacobian_entries_correct_witness :
    HasDerivAt
      (fun t => rawP 3 (1/2) (1/2) (Function.update rW 0 (Function.update (rW 0) 0 t)) kW)
      (rawQ 3 (1/2) (1/2) rW kW 0 0) (rW 0 0) :=
  rbf_jacobian_entries_correct 3 (1/2) (1/2) rW
    (fun j => by rw [dists_rW]; norm_num) kW 0 0

end RBF
